import Mathlib

/-!
Verification of the preemptive Shortest-Job-First scheduling simulator
(`executeSJFAlgorithm` and `calculatePerformanceMetrics` in `os.py`).

The scheduler is a discrete, unit-granularity simulation: a `while` loop over
a clock that each iteration either idles (no arrived process with work left)
or runs one unit of the ready process with minimum remaining time, updating a
Gantt timeline and per-process bookkeeping.  We embed the loop body as a pure
`step` function on an explicit state record and the loop as fuelled iteration;
a termination bound is proved below, so the fuelled run provably reaches the
loop's exit condition.  Python integers are modelled as `Int`; the `-1`
sentinels of the source are kept as written.
-/

/-- One process record, mirroring the dict built in `runSimulation`:
`{'pid': i+1, 'arrival': a, 'burst': b, 'remaining': b, 'start_time': -1,
'finish_time': -1, 'waiting': 0, 'response': -1}`.  The `turnaround` key is
added by `calculatePerformanceMetrics` in the source; here it is a field from
the start (initialised to 0, never read before being written). -/
structure Proc where
  pid : Int
  arrival : Int
  burst : Int
  remaining : Int
  start_time : Int
  finish_time : Int
  waiting : Int
  response : Int
  turnaround : Int
deriving Repr, DecidableEq

/-- Default process used as the out-of-bounds fallback of list lookups.  All
lookups proved about below are shown to be in bounds. -/
def dfltProc : Proc :=
  { pid := 0, arrival := 0, burst := 0, remaining := 0, start_time := -1,
    finish_time := -1, waiting := 0, response := -1, turnaround := 0 }

/-- One Gantt timeline entry `{'pid': p, 'start': s, 'end': e}`.  The `end`
key is called `endT` because `end` is a Lean keyword. -/
structure Segment where
  pid : Int
  start : Int
  endT : Int
deriving Repr, DecidableEq

/-- The mutable state of `executeSJFAlgorithm`: the process list (mutated in
place in the source), the Gantt data, the clock, the completed counter and the
pid of the process that ran on the previous tick (`-1` when none). -/
structure SchedState where
  processes : List Proc
  ganttData : List Segment
  currentTime : Int
  completedProcesses : Int
  currentProcessId : Int
deriving Repr, DecidableEq

/-- Element at index `i` of the process list (with default fallback). -/
def procAt (ps : List Proc) (i : Nat) : Proc :=
  ps.getD i dfltProc

/-- The Python indexing `self.processes[currentProcessId - 1]` (the index is
shown to be a genuine nonnegative in-bounds index whenever evaluated). -/
def getProc (ps : List Proc) (i : Int) : Proc :=
  procAt ps i.toNat

/-- The process list with its positions attached, in list order: model of
iterating over `self.processes`. -/
def withIdx (ps : List Proc) : List (Nat × Proc) :=
  (List.range ps.length).map (fun i => (i, procAt ps i))

/-- The list comprehension
`[p for p in self.processes if p['arrival'] <= currentTime and p['remaining'] > 0]`,
with positions attached so that the in-place mutation of the chosen element
can be expressed functionally. -/
def readyProcesses (ps : List Proc) (t : Int) : List (Nat × Proc) :=
  (withIdx ps).filter (fun ip => decide (ip.2.arrival ≤ t) && decide (0 < ip.2.remaining))

/-- Python's `min(xs, key=key)`: the first element attaining the minimum key
(Python's `min` only replaces its candidate on a strictly smaller key), or
`none` on the empty list (where Python raises). -/
def pyMin (key : α → Int) : List α → Option α
  | [] => none
  | a :: rest =>
    match pyMin key rest with
    | none => some a
    | some b => if key b < key a then some b else some a

/-- `min(readyProcesses, key=lambda p: p['remaining'])` as used each tick. -/
def selectShortestJob (ps : List Proc) (t : Int) : Option (Nat × Proc) :=
  pyMin (fun ip => ip.2.remaining) (readyProcesses ps t)

/-- `self.ganttData[-1]['end'] = e`: replace the last segment's `end`.
On the empty list the source would raise; all uses are shown nonempty. -/
def setLastEnd : List Segment → Int → List Segment
  | [], _ => []
  | [s], e => [{ s with endT := e }]
  | s :: s' :: rest, e => s :: setLastEnd (s' :: rest) e

/-- `self.ganttData[-1]['end'] += 1`: increment the last segment's `end`. -/
def bumpLastEnd : List Segment → List Segment
  | [] => []
  | [s] => [{ s with endT := s.endT + 1 }]
  | s :: s' :: rest => s :: bumpLastEnd (s' :: rest)

/-- The busy branch of one loop iteration of `executeSJFAlgorithm` (a ready
process exists), translated line by line.  `i` is the position of the selected
process in the list; all updates the source performs through the `shortestJob`
reference become `List.set` at `i`. -/
def stepBusy (st : SchedState) (i : Nat) (p0 : Proc) : SchedState :=
    let upd : List Proc × List Segment × Int × Proc :=
      if p0.pid ≠ st.currentProcessId then
        let g0 :=
          if st.currentProcessId ≠ -1 ∧
              0 < (getProc st.processes (st.currentProcessId - 1)).remaining then
            setLastEnd st.ganttData st.currentTime
          else
            st.ganttData
        let p1 :=
          if p0.response = -1 then
            { p0 with response := st.currentTime - p0.arrival }
          else p0
        let p2 :=
          if p1.start_time = -1 then
            { p1 with start_time := st.currentTime }
          else p1
        (st.processes.set i p2,
         g0 ++ [{ pid := p0.pid, start := st.currentTime, endT := st.currentTime + 1 }],
         p0.pid, p2)
      else
        (st.processes, bumpLastEnd st.ganttData, st.currentProcessId, p0)
    let p3 : Proc := { upd.2.2.2 with remaining := upd.2.2.2.remaining - 1 }
    if p3.remaining = 0 then
      { processes := upd.1.set i { p3 with finish_time := st.currentTime + 1 },
        ganttData := upd.2.1,
        currentTime := st.currentTime + 1,
        completedProcesses := st.completedProcesses + 1,
        currentProcessId := -1 }
    else
      { processes := upd.1.set i p3,
        ganttData := upd.2.1,
        currentTime := st.currentTime + 1,
        completedProcesses := st.completedProcesses,
        currentProcessId := upd.2.2.1 }

/-- One iteration of the `while completedProcesses < totalProcesses` loop:
either the idle branch (`currentTime += 1; continue`) or the busy branch on
the process selected by `min(readyProcesses, key=...)`. -/
def step (st : SchedState) : SchedState :=
  match selectShortestJob st.processes st.currentTime with
  | none => { st with currentTime := st.currentTime + 1 }
  | some (i, p0) => stepBusy st i p0

/-- Fuelled iteration of `step`; iteration stops as soon as the loop guard
`completedProcesses < totalProcesses` fails (the process-list length never
changes, so reading it from the current state equals the source's
`totalProcesses` captured before the loop). -/
def run : Nat → SchedState → SchedState
  | 0, st => st
  | n + 1, st =>
    if st.completedProcesses < (st.processes.length : Int) then run n (step st)
    else st

/-- The simulation input: one `(arrival, burst)` pair per process, in input
order. -/
def initProc (i : Nat) (ab : Int × Int) : Proc :=
  { pid := (i : Int) + 1, arrival := ab.1, burst := ab.2, remaining := ab.2,
    start_time := -1, finish_time := -1, waiting := 0, response := -1,
    turnaround := 0 }

/-- The state at the top of `executeSJFAlgorithm`: processes as built by
`runSimulation`, `ganttData = []`, `currentTime = 0`,
`completedProcesses = 0`, `currentProcessId = -1`. -/
def initState (input : List (Int × Int)) : SchedState :=
  { processes := (List.range input.length).map
      (fun i => initProc i (input.getD i (0, 0))),
    ganttData := [],
    currentTime := 0,
    completedProcesses := 0,
    currentProcessId := -1 }

/-- Largest arrival time of the batch (`0` on the empty list). -/
def maxArrival (ps : List Proc) : Int :=
  ps.foldr (fun p m => max p.arrival m) 0

/-- Total burst of the batch. -/
def sumBurst (ps : List Proc) : Int :=
  ps.foldr (fun p s => p.burst + s) 0

/-- Total remaining work of the batch. -/
def sumRemaining (ps : List Proc) : Int :=
  ps.foldr (fun p s => p.remaining + s) 0

/-- Fuel sufficient for the scheduling loop: `max(arrival) + sum(burst)`
ticks, the bound stated by the spec.  Proved sufficient below. -/
def schedFuel (input : List (Int × Int)) : Nat :=
  (maxArrival (initState input).processes + sumBurst (initState input).processes).toNat

/-- `executeSJFAlgorithm`, start to finish, on a validated input batch. -/
def executeSJFAlgorithm (input : List (Int × Int)) : SchedState :=
  run (schedFuel input) (initState input)

/-- The loop body of `calculatePerformanceMetrics`: sets `turnaround` and
`waiting` on each process and accumulates the three totals
(waiting, turnaround, response). -/
def metricsLoop : List Proc → List Proc × Int × Int × Int
  | [] => ([], 0, 0, 0)
  | p :: rest =>
    let tat := p.finish_time - p.arrival
    let w := tat - p.burst
    let p1 := { p with turnaround := tat, waiting := w }
    let r := metricsLoop rest
    (p1 :: r.1, w + r.2.1, tat + r.2.2.1, p.response + r.2.2.2)

/-- Result of the metrics phase: the updated process list and the three
averages (Python float division modelled as exact rational division). -/
structure MetricsResult where
  processes : List Proc
  avgWaiting : ℚ
  avgTurnaround : ℚ
  avgResponse : ℚ
deriving Repr, DecidableEq

/-- `calculatePerformanceMetrics`: per-process turnaround and waiting, and
the three averages over the batch. -/
def calculatePerformanceMetrics (ps : List Proc) : MetricsResult :=
  let r := metricsLoop ps
  { processes := r.1,
    avgWaiting := (r.2.1 : ℚ) / (ps.length : ℚ),
    avgTurnaround := (r.2.2.1 : ℚ) / (ps.length : ℚ),
    avgResponse := (r.2.2.2 : ℚ) / (ps.length : ℚ) }

/-- A valid input batch: nonempty, every arrival nonnegative, every burst
positive (what `runSimulation` enforces before calling the scheduler). -/
def ValidInput (input : List (Int × Int)) : Prop :=
  input ≠ [] ∧ ∀ ab ∈ input, 0 ≤ ab.1 ∧ 0 < ab.2

/-- The response-time and start-time bookkeeping the busy branch performs on
a newly dispatched process (set each sentinel field on first dispatch). -/
def pMark (t : Int) (p : Proc) : Proc :=
  let p1 := if p.response = -1 then { p with response := t - p.arrival } else p
  if p1.start_time = -1 then { p1 with start_time := t } else p1

/-- The end-of-iteration bookkeeping on the running process: decrement
`remaining` and, on completion, stamp `finish_time` with the advanced clock. -/
def pFinish (t : Int) (p : Proc) : Proc :=
  let p3 := { p with remaining := p.remaining - 1 }
  if p3.remaining = 0 then { p3 with finish_time := t + 1 } else p3

/-- Total CPU time the timeline attributes to process `q`. -/
def ganttSum (g : List Segment) (q : Int) : Int :=
  ((g.filter (fun s => decide (s.pid = q))).map (fun s => s.endT - s.start)).sum

/-- Number of processes that have finished (`remaining == 0`). -/
def doneCount (ps : List Proc) : Nat :=
  (ps.filter (fun p => decide (p.remaining = 0))).length

/-- Negation of the loop guard `completedProcesses < totalProcesses`. -/
def Done (st : SchedState) : Prop :=
  ¬ st.completedProcesses < (st.processes.length : Int)

/-- Termination potential: remaining work plus the longest possible stretch
of idle ticks still ahead.  Strictly decreases at every non-final iteration. -/
def phi (st : SchedState) : Int :=
  sumRemaining st.processes + max 0 (maxArrival st.processes - st.currentTime)

/-! ### Basic list access lemmas -/

/-- Reading the written index after `List.set`. -/
theorem procAt_set_self {ps : List Proc} {i : Nat} (h : i < ps.length) (p : Proc) :
    procAt (ps.set i p) i = p := by
  unfold procAt
  rw [List.getD_eq_getElem _ _ (by simpa using h)]
  exact List.getElem_set_self _

/-- Reading an untouched index after `List.set`. -/
theorem procAt_set_ne {ps : List Proc} {i j : Nat} (h : j ≠ i) (p : Proc) :
    procAt (ps.set i p) j = procAt ps j := by
  unfold procAt
  rw [List.getD_eq_getElem?_getD, List.getD_eq_getElem?_getD,
    List.getElem?_set_ne (Ne.symm h)]

/-- `procAt` at an in-bounds index is a member of the list. -/
theorem procAt_mem {ps : List Proc} {i : Nat} (h : i < ps.length) :
    procAt ps i ∈ ps := by
  unfold procAt
  rw [List.getD_eq_getElem _ _ h]
  exact List.getElem_mem h

/-! ### Membership in `withIdx` and `readyProcesses` -/

theorem mem_withIdx {ps : List Proc} {ip : Nat × Proc} :
    ip ∈ withIdx ps ↔ ip.1 < ps.length ∧ procAt ps ip.1 = ip.2 := by
  unfold withIdx
  constructor
  · intro h
    rcases List.mem_map.mp h with ⟨i, hi, hEq⟩
    have hi' : i < ps.length := List.mem_range.mp hi
    cases hEq
    exact ⟨hi', rfl⟩
  · rintro ⟨h1, h2⟩
    exact List.mem_map.mpr ⟨ip.1, List.mem_range.mpr h1, by cases ip; simp_all⟩

theorem mem_readyProcesses {ps : List Proc} {t : Int} {ip : Nat × Proc} :
    ip ∈ readyProcesses ps t ↔
      ip.1 < ps.length ∧ procAt ps ip.1 = ip.2 ∧ ip.2.arrival ≤ t ∧ 0 < ip.2.remaining := by
  unfold readyProcesses
  rw [List.mem_filter, mem_withIdx]
  simp [and_assoc]

/-- Indices in the ready list are strictly increasing (the ready list keeps
process-list order). -/
theorem readyProcesses_sorted (ps : List Proc) (t : Int) :
    List.Pairwise (fun a b : Nat × Proc => a.1 < b.1) (readyProcesses ps t) := by
  unfold readyProcesses withIdx
  apply List.Pairwise.filter
  apply List.Pairwise.map (fun i => (i, procAt ps i)) (fun a b h => h)
  exact List.pairwise_lt_range ps.length

/-! ### Python `min` lemmas -/

theorem pyMin_eq_none {key : α → Int} {l : List α} :
    pyMin key l = none ↔ l = [] := by
  cases l with
  | nil => simp [pyMin]
  | cons a rest =>
    simp only [pyMin]
    cases h : pyMin key rest with
    | none => simp
    | some b => by_cases hb : key b < key a <;> simp [hb]

theorem pyMin_mem {key : α → Int} {l : List α} {a : α} (h : pyMin key l = some a) :
    a ∈ l := by
  induction l with
  | nil => simp [pyMin] at h
  | cons x rest ih =>
    cases hr : pyMin key rest with
    | none =>
      simp only [pyMin, hr] at h
      cases h; exact List.mem_cons_self _ _
    | some b =>
      simp only [pyMin, hr] at h
      by_cases hb : key b < key x
      · rw [if_pos hb] at h; cases h; exact List.mem_cons_of_mem _ (ih hr)
      · rw [if_neg hb] at h; cases h; exact List.mem_cons_self _ _

theorem pyMin_le {key : α → Int} {l : List α} {a : α} (h : pyMin key l = some a) :
    ∀ b ∈ l, key a ≤ key b := by
  induction l generalizing a with
  | nil => simp [pyMin] at h
  | cons x rest ih =>
    intro b hb
    cases hr : pyMin key rest with
    | none =>
      simp only [pyMin, hr] at h
      cases h
      rcases List.mem_cons.mp hb with hb | hb
      · subst hb; exact le_refl _
      · exact absurd (pyMin_eq_none.mp hr ▸ hb) (List.not_mem_nil b)
    | some c =>
      simp only [pyMin, hr] at h
      by_cases hc : key c < key x
      · rw [if_pos hc] at h; cases h
        rcases List.mem_cons.mp hb with hb | hb
        · subst hb; exact le_of_lt hc
        · exact ih hr b hb
      · rw [if_neg hc] at h; cases h
        rcases List.mem_cons.mp hb with hb | hb
        · subst hb; exact le_refl _
        · exact le_trans (not_lt.mp hc) (ih hr b hb)

/-- Python's `min` returns the first element attaining the minimum: everything
strictly before the returned element has a strictly larger key. -/
theorem pyMin_first {key : α → Int} {l : List α} {a : α} (h : pyMin key l = some a) :
    ∃ l1 l2, l = l1 ++ a :: l2 ∧ ∀ b ∈ l1, key a < key b := by
  induction l generalizing a with
  | nil => simp [pyMin] at h
  | cons x rest ih =>
    cases hr : pyMin key rest with
    | none =>
      simp only [pyMin, hr] at h
      cases h
      exact ⟨[], rest, rfl, by simp⟩
    | some c =>
      simp only [pyMin, hr] at h
      by_cases hc : key c < key x
      · rw [if_pos hc] at h; cases h
        rcases ih hr with ⟨l1, l2, hEq, hGt⟩
        refine ⟨x :: l1, l2, by simp [hEq], ?_⟩
        intro b hb
        rcases List.mem_cons.mp hb with hb | hb
        · subst hb; exact hc
        · exact hGt b hb
      · rw [if_neg hc] at h; cases h
        exact ⟨[], rest, rfl, by simp⟩

/-! ### Facts about the tick selection -/

theorem selectShortestJob_eq_none {ps : List Proc} {t : Int} :
    selectShortestJob ps t = none ↔ readyProcesses ps t = [] := by
  unfold selectShortestJob
  exact pyMin_eq_none

/-- Everything the busy branch knows about the selected process: in-bounds
position, identity with the list entry, readiness. -/
theorem select_facts {ps : List Proc} {t : Int} {i : Nat} {p0 : Proc}
    (h : selectShortestJob ps t = some (i, p0)) :
    i < ps.length ∧ procAt ps i = p0 ∧ p0.arrival ≤ t ∧ 0 < p0.remaining := by
  have hm := pyMin_mem h
  have := mem_readyProcesses.mp hm
  exact ⟨this.1, this.2.1, this.2.2.1, this.2.2.2⟩

/-- The selected process minimises `remaining` over the ready set. -/
theorem select_min {ps : List Proc} {t : Int} {i : Nat} {p0 : Proc}
    (h : selectShortestJob ps t = some (i, p0)) :
    ∀ j, j < ps.length → (procAt ps j).arrival ≤ t → 0 < (procAt ps j).remaining →
      p0.remaining ≤ (procAt ps j).remaining := by
  intro j hj harr hrem
  have hmem : (j, procAt ps j) ∈ readyProcesses ps t :=
    mem_readyProcesses.mpr ⟨hj, rfl, harr, hrem⟩
  exact pyMin_le h _ hmem

/-- Ties go to the earlier list position: any ready process strictly before
the selected one has strictly larger `remaining`. -/
theorem select_first {ps : List Proc} {t : Int} {i : Nat} {p0 : Proc}
    (h : selectShortestJob ps t = some (i, p0)) :
    ∀ j, j < i → (procAt ps j).arrival ≤ t → 0 < (procAt ps j).remaining →
      p0.remaining < (procAt ps j).remaining := by
  intro j hji harr hrem
  have hj : j < ps.length := by
    rcases select_facts h with ⟨hi, _, _, _⟩
    omega
  have hmem : (j, procAt ps j) ∈ readyProcesses ps t :=
    mem_readyProcesses.mpr ⟨hj, rfl, harr, hrem⟩
  rcases pyMin_first h with ⟨l1, l2, hEq, hGt⟩
  have hsorted := readyProcesses_sorted ps t
  rw [hEq] at hsorted
  rcases List.pairwise_append.mp hsorted with ⟨_, hP2, _⟩
  rw [hEq] at hmem
  rcases List.mem_append.mp hmem with hmem1 | hmem2
  · exact hGt _ hmem1
  · rcases List.mem_cons.mp hmem2 with heq | hmem2
    · have : j = i := congrArg Prod.fst heq
      omega
    · have := (List.pairwise_cons.mp hP2).1 _ hmem2
      simp only at this
      omega

/-! ### Last-segment surgery -/

theorem setLastEnd_eq : ∀ (g : List Segment) (h : g ≠ []) (e : Int),
    setLastEnd g e = g.dropLast ++ [{ g.getLast h with endT := e }]
  | [], h, _ => absurd rfl h
  | [s], _, e => rfl
  | s :: s' :: rest, _, e => by
    have ih := setLastEnd_eq (s' :: rest) (List.cons_ne_nil s' rest) e
    simp only [setLastEnd, ih, List.dropLast_cons₂, List.cons_append,
      List.getLast_cons (List.cons_ne_nil s' rest)]

theorem bumpLastEnd_eq : ∀ (g : List Segment) (h : g ≠ []),
    bumpLastEnd g = g.dropLast ++ [{ g.getLast h with endT := (g.getLast h).endT + 1 }]
  | [], h => absurd rfl h
  | [s], _ => rfl
  | s :: s' :: rest, _ => by
    have ih := bumpLastEnd_eq (s' :: rest) (List.cons_ne_nil s' rest)
    simp only [bumpLastEnd, ih, List.dropLast_cons₂, List.cons_append,
      List.getLast_cons (List.cons_ne_nil s' rest)]

/-- Writing back the value the last segment already carries is a no-op. -/
theorem setLastEnd_self {g : List Segment} (h : g ≠ []) (e : Int)
    (hlast : (g.getLast h).endT = e) : setLastEnd g e = g := by
  rw [setLastEnd_eq g h e, ← hlast]
  rw [show { g.getLast h with endT := (g.getLast h).endT } = g.getLast h from rfl]
  exact List.dropLast_append_getLast h

/-! ### Timeline time accounting -/

theorem ganttSum_nil (q : Int) : ganttSum [] q = 0 := rfl

theorem ganttSum_append (g1 g2 : List Segment) (q : Int) :
    ganttSum (g1 ++ g2) q = ganttSum g1 q + ganttSum g2 q := by
  unfold ganttSum
  rw [List.filter_append, List.map_append, List.sum_append]

theorem ganttSum_singleton (s : Segment) (q : Int) :
    ganttSum [s] q = if s.pid = q then s.endT - s.start else 0 := by
  unfold ganttSum
  by_cases h : s.pid = q <;> simp [List.filter, h]

/-! ### Counting completed processes -/

theorem doneCount_cons (p : Proc) (ps : List Proc) :
    doneCount (p :: ps) = (if p.remaining = 0 then 1 else 0) + doneCount ps := by
  unfold doneCount
  by_cases h : p.remaining = 0 <;> simp [List.filter, h, Nat.add_comm]

theorem doneCount_le (ps : List Proc) : doneCount ps ≤ ps.length :=
  List.length_filter_le _ _

theorem doneCount_eq_length_iff {ps : List Proc} :
    doneCount ps = ps.length ↔ ∀ p ∈ ps, p.remaining = 0 := by
  induction ps with
  | nil => simp [doneCount]
  | cons p rest ih =>
    rw [doneCount_cons]
    by_cases h : p.remaining = 0
    · have hle := doneCount_le rest
      rw [if_pos h, List.length_cons]
      constructor
      · intro hEq q hq
        rcases List.mem_cons.mp hq with rfl | hq
        · exact h
        · exact ih.mp (by omega) q hq
      · intro hall
        have : doneCount rest = rest.length :=
          ih.mpr (fun q hq => hall q (List.mem_cons_of_mem _ hq))
        omega
    · have hle := doneCount_le rest
      simp only [if_neg h, List.length_cons, List.mem_cons]
      constructor
      · intro hEq; omega
      · intro hall; exact absurd (hall p (Or.inl rfl)) h

theorem doneCount_set_stay {ps : List Proc} {i : Nat} {p' : Proc} :
    ∀ (_ : i < ps.length)
      (_ : ((procAt ps i).remaining = 0 ↔ p'.remaining = 0)),
      doneCount (ps.set i p') = doneCount ps := by
  induction ps generalizing i with
  | nil => intro h; simp at h
  | cons p rest ih =>
    intro hlen hiff
    cases i with
    | zero =>
      simp only [List.set_cons_zero, doneCount_cons]
      simp only [procAt, List.getD_cons_zero] at hiff
      by_cases h : p.remaining = 0
      · rw [if_pos h, if_pos (hiff.mp h)]
      · rw [if_neg h, if_neg (fun hc => h (hiff.mpr hc))]
    | succ i =>
      simp only [List.set_cons_succ, doneCount_cons]
      simp only [procAt, List.getD_cons_succ] at hiff
      rw [ih (by simpa using hlen) hiff]

theorem doneCount_set_complete {ps : List Proc} {i : Nat} {p' : Proc} :
    ∀ (_ : i < ps.length) (_ : (procAt ps i).remaining ≠ 0) (_ : p'.remaining = 0),
      doneCount (ps.set i p') = doneCount ps + 1 := by
  induction ps generalizing i with
  | nil => intro h; simp at h
  | cons p rest ih =>
    intro hlen hold hnew
    cases i with
    | zero =>
      simp only [List.set_cons_zero, doneCount_cons]
      simp only [procAt, List.getD_cons_zero] at hold
      rw [if_pos hnew, if_neg hold]
      omega
    | succ i =>
      simp only [List.set_cons_succ, doneCount_cons]
      simp only [procAt, List.getD_cons_succ] at hold
      rw [ih (by simpa using hlen) hold hnew]
      omega

theorem doneCount_lt_exists {ps : List Proc} (h : doneCount ps < ps.length) :
    ∃ i, i < ps.length ∧ (procAt ps i).remaining ≠ 0 := by
  by_contra hc
  push_neg at hc
  have hall : ∀ p ∈ ps, p.remaining = 0 := by
    intro p hp
    rcases List.getElem_of_mem hp with ⟨i, hi, hEq⟩
    have := hc i hi
    rwa [procAt, List.getD_eq_getElem _ _ hi, hEq] at this
  have := doneCount_eq_length_iff.mpr hall
  omega

/-! ### Normal forms for the per-tick updates -/

theorem pFinish_eq (t : Int) (p : Proc) :
    pFinish t p =
      { p with remaining := p.remaining - 1,
               finish_time := if p.remaining - 1 = 0 then t + 1 else p.finish_time } := by
  unfold pFinish
  by_cases h : p.remaining - 1 = 0 <;> simp [h]

theorem pMark_eq (t : Int) (p : Proc) :
    pMark t p =
      { p with response := if p.response = -1 then t - p.arrival else p.response,
               start_time := if p.start_time = -1 then t else p.start_time } := by
  unfold pMark
  by_cases h1 : p.response = -1 <;> by_cases h2 : p.start_time = -1 <;> simp [h1, h2]

/-- Canonical form of the busy branch when the same process keeps the CPU. -/
theorem stepBusy_cont_eq (st : SchedState) (i : Nat) (p0 : Proc)
    (h : ¬ p0.pid ≠ st.currentProcessId) :
    stepBusy st i p0 =
      { processes := st.processes.set i (pFinish st.currentTime p0),
        ganttData := bumpLastEnd st.ganttData,
        currentTime := st.currentTime + 1,
        completedProcesses :=
          if p0.remaining - 1 = 0 then st.completedProcesses + 1
          else st.completedProcesses,
        currentProcessId :=
          if p0.remaining - 1 = 0 then -1 else st.currentProcessId } := by
  rw [pFinish_eq]
  simp only [stepBusy, if_neg h]
  by_cases hd : p0.remaining - 1 = 0 <;> simp [hd]

/-- Canonical form of the busy branch on a CPU handover, once the
(no-op) rewrite of the previous segment's `end` has been discharged. -/
theorem stepBusy_new_eq (st : SchedState) (i : Nat) (p0 : Proc)
    (h : p0.pid ≠ st.currentProcessId)
    (hg : (if st.currentProcessId ≠ -1 ∧
            0 < (getProc st.processes (st.currentProcessId - 1)).remaining then
          setLastEnd st.ganttData st.currentTime
        else st.ganttData) = st.ganttData) :
    stepBusy st i p0 =
      { processes := st.processes.set i (pFinish st.currentTime (pMark st.currentTime p0)),
        ganttData := st.ganttData ++
          [{ pid := p0.pid, start := st.currentTime, endT := st.currentTime + 1 }],
        currentTime := st.currentTime + 1,
        completedProcesses :=
          if p0.remaining - 1 = 0 then st.completedProcesses + 1
          else st.completedProcesses,
        currentProcessId :=
          if p0.remaining - 1 = 0 then -1 else p0.pid } := by
  have hmark : (pMark st.currentTime p0).remaining = p0.remaining := by
    rw [pMark_eq]
  rw [pFinish_eq]
  simp only [stepBusy, if_pos h, hg, pMark, List.set_set]
  by_cases hd : p0.remaining - 1 = 0 <;>
    by_cases h1 : p0.response = -1 <;>
    by_cases h2 : p0.start_time = -1 <;>
    simp [hd, h1, h2]

/-- Normal form of the full update applied to a newly dispatched process. -/
theorem pNew_eq (t : Int) (p0 : Proc) :
    pFinish t (pMark t p0) =
      { p0 with
        response := if p0.response = -1 then t - p0.arrival else p0.response,
        start_time := if p0.start_time = -1 then t else p0.start_time,
        remaining := p0.remaining - 1,
        finish_time := if p0.remaining - 1 = 0 then t + 1 else p0.finish_time } := by
  rw [pMark_eq, pFinish_eq]

/-! ### Batch totals -/

theorem sumRemaining_cons (p : Proc) (ps : List Proc) :
    sumRemaining (p :: ps) = p.remaining + sumRemaining ps := rfl

theorem sumRemaining_set {ps : List Proc} {i : Nat} (p' : Proc) :
    ∀ _ : i < ps.length,
      sumRemaining (ps.set i p') =
        sumRemaining ps - (procAt ps i).remaining + p'.remaining := by
  induction ps generalizing i with
  | nil => intro h; simp at h
  | cons p rest ih =>
    intro hlen
    cases i with
    | zero =>
      simp only [List.set_cons_zero, sumRemaining_cons, procAt, List.getD_cons_zero]
      ring
    | succ i =>
      simp only [List.set_cons_succ, sumRemaining_cons, procAt, List.getD_cons_succ]
      rw [ih (by simpa using hlen)]
      unfold procAt
      ring

theorem sumRemaining_nonneg {ps : List Proc}
    (h : ∀ p ∈ ps, 0 ≤ p.remaining) : 0 ≤ sumRemaining ps := by
  induction ps with
  | nil => simp [sumRemaining]
  | cons p rest ih =>
    rw [sumRemaining_cons]
    have h1 := h p (List.mem_cons_self _ _)
    have h2 := ih (fun q hq => h q (List.mem_cons_of_mem _ hq))
    omega

theorem sumRemaining_pos {ps : List Proc} {i : Nat}
    (hall : ∀ p ∈ ps, 0 ≤ p.remaining)
    (hi : i < ps.length) (hpos : 0 < (procAt ps i).remaining) :
    0 < sumRemaining ps := by
  induction ps generalizing i with
  | nil => simp at hi
  | cons p rest ih =>
    rw [sumRemaining_cons]
    have h2 := sumRemaining_nonneg (fun q hq => hall q (List.mem_cons_of_mem _ hq))
    cases i with
    | zero =>
      simp only [procAt, List.getD_cons_zero] at hpos
      omega
    | succ i =>
      have h1 := hall p (List.mem_cons_self _ _)
      have := ih (fun q hq => hall q (List.mem_cons_of_mem _ hq))
        (by simpa using hi) (by simpa [procAt, List.getD_cons_succ] using hpos)
      omega

theorem maxArrival_cons (p : Proc) (ps : List Proc) :
    maxArrival (p :: ps) = max p.arrival (maxArrival ps) := rfl

theorem maxArrival_nonneg (ps : List Proc) : 0 ≤ maxArrival ps := by
  induction ps with
  | nil => simp [maxArrival]
  | cons p rest ih =>
    rw [maxArrival_cons]
    exact le_trans ih (le_max_right _ _)

theorem arrival_le_maxArrival {ps : List Proc} {p : Proc} (h : p ∈ ps) :
    p.arrival ≤ maxArrival ps := by
  induction ps with
  | nil => simp at h
  | cons q rest ih =>
    rw [maxArrival_cons]
    rcases List.mem_cons.mp h with rfl | h
    · exact le_max_left _ _
    · exact le_trans (ih h) (le_max_right _ _)

theorem maxArrival_set {ps : List Proc} {i : Nat} {p' : Proc} :
    ∀ (_ : i < ps.length) (_ : p'.arrival = (procAt ps i).arrival),
      maxArrival (ps.set i p') = maxArrival ps := by
  induction ps generalizing i with
  | nil => intro h; simp at h
  | cons p rest ih =>
    intro hlen harr
    cases i with
    | zero =>
      simp only [List.set_cons_zero, maxArrival_cons]
      simp only [procAt, List.getD_cons_zero] at harr
      rw [harr]
    | succ i =>
      simp only [List.set_cons_succ, maxArrival_cons]
      simp only [procAt, List.getD_cons_succ] at harr
      rw [ih (by simpa using hlen) harr]

theorem sumBurst_cons (p : Proc) (ps : List Proc) :
    sumBurst (p :: ps) = p.burst + sumBurst ps := rfl

theorem sumRemaining_eq_sumBurst {ps : List Proc}
    (h : ∀ p ∈ ps, p.remaining = p.burst) : sumRemaining ps = sumBurst ps := by
  induction ps with
  | nil => rfl
  | cons p rest ih =>
    rw [sumRemaining_cons, sumBurst_cons, h p (List.mem_cons_self _ _),
      ih (fun q hq => h q (List.mem_cons_of_mem _ hq))]

/-! ### The loop invariant -/

/-- Invariant of the scheduling loop, attached to every state the loop
reaches.  `procAt st.processes j` is process `P(j+1)` of the simulation. -/
structure LoopInv (st : SchedState) : Prop where
  time_nonneg : 0 ≤ st.currentTime
  pid_idx : ∀ j, j < st.processes.length →
    (procAt st.processes j).pid = (j : Int) + 1
  arrival_nonneg : ∀ j, j < st.processes.length →
    0 ≤ (procAt st.processes j).arrival
  burst_pos : ∀ j, j < st.processes.length →
    0 < (procAt st.processes j).burst
  rem_nonneg : ∀ j, j < st.processes.length →
    0 ≤ (procAt st.processes j).remaining
  rem_le_burst : ∀ j, j < st.processes.length →
    (procAt st.processes j).remaining ≤ (procAt st.processes j).burst
  finish_unset : ∀ j, j < st.processes.length →
    (0 < (procAt st.processes j).remaining ↔
      (procAt st.processes j).finish_time = -1)
  finish_val : ∀ j, j < st.processes.length →
    (procAt st.processes j).remaining = 0 →
    (procAt st.processes j).arrival + (procAt st.processes j).burst ≤
        (procAt st.processes j).finish_time ∧
      (procAt st.processes j).finish_time ≤ st.currentTime
  exec_bound : ∀ j, j < st.processes.length →
    (procAt st.processes j).remaining < (procAt st.processes j).burst →
    (procAt st.processes j).arrival +
        ((procAt st.processes j).burst - (procAt st.processes j).remaining) ≤
      st.currentTime
  completed_eq : st.completedProcesses = (doneCount st.processes : Int)
  cpid_inv : st.currentProcessId ≠ -1 →
    ∃ j, j < st.processes.length ∧ st.currentProcessId = (j : Int) + 1 ∧
      0 < (procAt st.processes j).remaining ∧
      (procAt st.processes j).arrival < st.currentTime ∧
      ∃ lastSeg, st.ganttData.getLast? = some lastSeg ∧
        lastSeg.pid = st.currentProcessId ∧ lastSeg.endT = st.currentTime
  last_done : st.currentProcessId = -1 →
    ∀ lastSeg, st.ganttData.getLast? = some lastSeg →
    ∃ j, j < st.processes.length ∧ lastSeg.pid = (j : Int) + 1 ∧
      (procAt st.processes j).remaining = 0
  seg_bounds : ∀ s ∈ st.ganttData,
    0 ≤ s.start ∧ s.start < s.endT ∧ s.endT ≤ st.currentTime
  gantt_chain :
    List.Chain' (fun a b => a.endT ≤ b.start ∧ a.pid ≠ b.pid) st.ganttData
  gantt_sum : ∀ j, j < st.processes.length →
    ganttSum st.ganttData ((j : Int) + 1) =
      (procAt st.processes j).burst - (procAt st.processes j).remaining

/-- A process that is ready now has always had time to do the work it has
already done: `arrival + (burst - remaining) ≤ clock`. -/
theorem running_bound {st : SchedState} {i : Nat} {p0 : Proc} (inv : LoopInv st)
    (hi : i < st.processes.length) (hp0 : procAt st.processes i = p0)
    (harr : p0.arrival ≤ st.currentTime) :
    p0.arrival + (p0.burst - p0.remaining) ≤ st.currentTime := by
  have hle := inv.rem_le_burst i hi
  rw [hp0] at hle
  rcases lt_or_eq_of_le hle with hlt | heq
  · have := inv.exec_bound i hi
    rw [hp0] at this
    exact this hlt
  · rw [heq]
    omega

/-- All per-process invariant clauses survive one busy tick: the selected
process at position `i` is replaced by any record `pF` that decrements
`remaining`, stamps `finish_time` with `clock + 1` exactly on completion, and
leaves `pid`, `arrival` and `burst` alone. -/
theorem inv_procs_set (st : SchedState) (i : Nat) (p0 pF : Proc) (inv : LoopInv st)
    (hi : i < st.processes.length) (hp0 : procAt st.processes i = p0)
    (harr : p0.arrival ≤ st.currentTime) (hrem : 0 < p0.remaining)
    (hpid : pF.pid = p0.pid) (harr2 : pF.arrival = p0.arrival)
    (hburst : pF.burst = p0.burst) (hrem2 : pF.remaining = p0.remaining - 1)
    (hfin : pF.finish_time =
      if p0.remaining - 1 = 0 then st.currentTime + 1 else p0.finish_time) :
    (∀ j, j < (st.processes.set i pF).length →
      (procAt (st.processes.set i pF) j).pid = (j : Int) + 1) ∧
    (∀ j, j < (st.processes.set i pF).length →
      0 ≤ (procAt (st.processes.set i pF) j).arrival) ∧
    (∀ j, j < (st.processes.set i pF).length →
      0 < (procAt (st.processes.set i pF) j).burst) ∧
    (∀ j, j < (st.processes.set i pF).length →
      0 ≤ (procAt (st.processes.set i pF) j).remaining) ∧
    (∀ j, j < (st.processes.set i pF).length →
      (procAt (st.processes.set i pF) j).remaining ≤
        (procAt (st.processes.set i pF) j).burst) ∧
    (∀ j, j < (st.processes.set i pF).length →
      (0 < (procAt (st.processes.set i pF) j).remaining ↔
        (procAt (st.processes.set i pF) j).finish_time = -1)) ∧
    (∀ j, j < (st.processes.set i pF).length →
      (procAt (st.processes.set i pF) j).remaining = 0 →
      (procAt (st.processes.set i pF) j).arrival +
          (procAt (st.processes.set i pF) j).burst ≤
        (procAt (st.processes.set i pF) j).finish_time ∧
      (procAt (st.processes.set i pF) j).finish_time ≤ st.currentTime + 1) ∧
    (∀ j, j < (st.processes.set i pF).length →
      (procAt (st.processes.set i pF) j).remaining <
        (procAt (st.processes.set i pF) j).burst →
      (procAt (st.processes.set i pF) j).arrival +
          ((procAt (st.processes.set i pF) j).burst -
            (procAt (st.processes.set i pF) j).remaining) ≤
        st.currentTime + 1) := by
  have hrun := running_bound inv hi hp0 harr
  have hput := procAt_set_self hi pF
  refine ⟨?_, ?_, ?_, ?_, ?_, ?_, ?_, ?_⟩ <;>
    intro j hj <;> rw [List.length_set] at hj <;> by_cases hji : j = i
  · subst hji
    rw [hput, hpid, ← hp0]
    exact inv.pid_idx j hj
  · rw [procAt_set_ne hji]; exact inv.pid_idx j hj
  · subst hji
    rw [hput, harr2, ← hp0]
    exact inv.arrival_nonneg j hj
  · rw [procAt_set_ne hji]; exact inv.arrival_nonneg j hj
  · subst hji
    rw [hput, hburst, ← hp0]
    exact inv.burst_pos j hj
  · rw [procAt_set_ne hji]; exact inv.burst_pos j hj
  · subst hji
    rw [hput, hrem2]
    omega
  · rw [procAt_set_ne hji]; exact inv.rem_nonneg j hj
  · subst hji
    have := inv.rem_le_burst j hj
    rw [hp0] at this
    rw [hput, hrem2, hburst]
    omega
  · rw [procAt_set_ne hji]; exact inv.rem_le_burst j hj
  · subst hji
    rw [hput, hrem2, hfin]
    by_cases hd : p0.remaining - 1 = 0
    · rw [if_pos hd]
      have ht := inv.time_nonneg
      constructor
      · intro h; omega
      · intro h; omega
    · rw [if_neg hd]
      have := inv.finish_unset j hj
      rw [hp0] at this
      constructor
      · intro _; exact this.mp hrem
      · intro _; omega
  · rw [procAt_set_ne hji]; exact inv.finish_unset j hj
  · subst hji
    rw [hput, hrem2, hfin, harr2, hburst]
    intro hz
    have hd : p0.remaining - 1 = 0 := hz
    rw [if_pos hd]
    constructor
    · omega
    · omega
  · rw [procAt_set_ne hji]
    intro hz
    have := inv.finish_val j hj hz
    exact ⟨this.1, by omega⟩
  · subst hji
    rw [hput, hrem2, harr2, hburst]
    intro _
    omega
  · rw [procAt_set_ne hji]
    intro hlt
    have := inv.exec_bound j hj hlt
    omega

theorem ganttSum_concat (l : List Segment) (s : Segment) (q : Int) :
    ganttSum (l ++ [s]) q = ganttSum l q + (if s.pid = q then s.endT - s.start else 0) := by
  rw [ganttSum_append, ganttSum_singleton]

/-- The idle branch (`currentTime += 1`) preserves the invariant. -/
theorem inv_step_idle {st : SchedState} (inv : LoopInv st)
    (hsel : selectShortestJob st.processes st.currentTime = none) :
    LoopInv { st with currentTime := st.currentTime + 1 } := by
  have hcpid : st.currentProcessId = -1 := by
    by_contra hc
    rcases inv.cpid_inv hc with ⟨j, hj, _, hjrem, hjarr, _⟩
    have hmem : (j, procAt st.processes j) ∈ readyProcesses st.processes st.currentTime :=
      mem_readyProcesses.mpr ⟨hj, rfl, le_of_lt hjarr, hjrem⟩
    exact List.ne_nil_of_mem hmem (selectShortestJob_eq_none.mp hsel)
  have ht := inv.time_nonneg
  refine ⟨by dsimp only; omega, inv.pid_idx, inv.arrival_nonneg, inv.burst_pos,
    inv.rem_nonneg, inv.rem_le_burst, inv.finish_unset, ?_, ?_,
    inv.completed_eq, ?_, ?_, ?_, inv.gantt_chain, inv.gantt_sum⟩
  · intro j hj hz
    dsimp only at hz ⊢
    have := inv.finish_val j hj hz
    exact ⟨this.1, by omega⟩
  · intro j hj hlt
    dsimp only at hlt ⊢
    have := inv.exec_bound j hj hlt
    omega
  · intro hc
    exact absurd hcpid hc
  · intro _ lastSeg hlast
    exact inv.last_done hcpid lastSeg hlast
  · intro s hs
    dsimp only
    have := inv.seg_bounds s hs
    exact ⟨this.1, this.2.1, by omega⟩

/-- The busy branch preserves the invariant when the same process keeps the
CPU (the `else` branch extending the last Gantt segment). -/
theorem inv_stepBusy_cont {st : SchedState} {i : Nat} {p0 : Proc} (inv : LoopInv st)
    (hsel : selectShortestJob st.processes st.currentTime = some (i, p0))
    (h : ¬ p0.pid ≠ st.currentProcessId) :
    LoopInv (stepBusy st i p0) := by
  rcases select_facts hsel with ⟨hi, hp0, harr, hrem⟩
  have heq : p0.pid = st.currentProcessId := not_not.mp h
  have hpid0 : p0.pid = (i : Int) + 1 := by rw [← hp0]; exact inv.pid_idx i hi
  have hcne : st.currentProcessId ≠ -1 := by rw [← heq, hpid0]; omega
  rcases inv.cpid_inv hcne with ⟨j, hj, hjpid, hjrem, hjarr, lastSeg, hlast, hlpid, hlend⟩
  have hji : j = i := by
    have h2 : (j : Int) + 1 = (i : Int) + 1 := by rw [← hjpid, ← heq, hpid0]
    omega
  rw [hji] at hjpid hjrem hjarr
  have hgne : st.ganttData ≠ [] := by
    intro hnil
    rw [hnil] at hlast
    simp at hlast
  have hlastEq : st.ganttData.getLast hgne = lastSeg := by
    have h3 := List.getLast?_eq_getLast st.ganttData hgne
    rw [h3] at hlast
    exact Option.some_injective _ hlast
  have hdecomp : st.ganttData = st.ganttData.dropLast ++ [lastSeg] := by
    rw [← hlastEq]
    exact (List.dropLast_append_getLast hgne).symm
  have hbump : bumpLastEnd st.ganttData =
      st.ganttData.dropLast ++ [{ lastSeg with endT := lastSeg.endT + 1 }] := by
    rw [bumpLastEnd_eq st.ganttData hgne, hlastEq]
  have hfield := pFinish_eq st.currentTime p0
  rcases inv_procs_set st i p0 (pFinish st.currentTime p0) inv hi hp0 harr hrem
      (by rw [hfield]) (by rw [hfield]) (by rw [hfield]) (by rw [hfield])
      (by rw [hfield]) with ⟨c1, c2, c3, c4, c5, c6, c7, c8⟩
  have hremne : (procAt st.processes i).remaining ≠ 0 := by rw [hp0]; omega
  rw [stepBusy_cont_eq st i p0 h]
  refine ⟨?_, c1, c2, c3, c4, c5, c6, c7, c8, ?_, ?_, ?_, ?_, ?_, ?_⟩
  · dsimp only
    have := inv.time_nonneg
    omega
  · dsimp only
    by_cases hd : p0.remaining - 1 = 0
    · rw [if_pos hd, doneCount_set_complete hi hremne (by rw [hfield]; exact hd),
        inv.completed_eq]
      push_cast
      ring
    · rw [if_neg hd,
        doneCount_set_stay hi (iff_of_false hremne (by rw [hfield]; exact hd))]
      exact inv.completed_eq
  · dsimp only
    by_cases hd : p0.remaining - 1 = 0
    · rw [if_pos hd]
      intro hc
      exact absurd rfl hc
    · rw [if_neg hd]
      intro _
      refine ⟨i, by rw [List.length_set]; exact hi, hjpid, ?_, ?_,
        ⟨{ lastSeg with endT := lastSeg.endT + 1 }, ?_, hlpid, by dsimp only; omega⟩⟩
      · rw [procAt_set_self hi, hfield]
        dsimp only
        omega
      · rw [procAt_set_self hi, hfield]
        dsimp only
        omega
      · rw [hbump]
        exact List.getLast?_concat _
  · dsimp only
    by_cases hd : p0.remaining - 1 = 0
    · rw [if_pos hd]
      intro _ ls' hls'
      rw [hbump, List.getLast?_concat] at hls'
      have hls : ls' = { lastSeg with endT := lastSeg.endT + 1 } :=
        (Option.some_injective _ hls').symm
      subst hls
      refine ⟨i, by rw [List.length_set]; exact hi, ?_, ?_⟩
      · dsimp only
        rw [hlpid, hjpid]
      · rw [procAt_set_self hi, hfield]
        exact hd
    · rw [if_neg hd]
      intro hfalse
      exact absurd hfalse hcne
  · dsimp only
    rw [hbump]
    intro s hs
    rcases List.mem_append.mp hs with hs | hs
    · have hmem : s ∈ st.ganttData := List.dropLast_subset _ hs
      have := inv.seg_bounds s hmem
      exact ⟨this.1, this.2.1, by omega⟩
    · rw [List.mem_singleton] at hs
      subst hs
      have hmemL : lastSeg ∈ st.ganttData := by
        rw [hdecomp]
        exact List.mem_append_right _ (List.mem_singleton.mpr rfl)
      have := inv.seg_bounds lastSeg hmemL
      dsimp only
      exact ⟨this.1, by omega, by omega⟩
  · dsimp only
    rw [hbump]
    have hchain := inv.gantt_chain
    rw [hdecomp, List.chain'_append] at hchain
    obtain ⟨hL, _, hlink⟩ := hchain
    rw [List.chain'_append]
    refine ⟨hL, List.chain'_singleton _, ?_⟩
    intro x hx y hy
    simp only [List.head?_cons, Option.mem_def, Option.some.injEq] at hy
    subst hy
    have := hlink x hx lastSeg (by simp)
    exact ⟨this.1, this.2⟩
  · dsimp only
    intro k hk
    rw [List.length_set] at hk
    rw [hbump, ganttSum_concat]
    by_cases hki : k = i
    · subst hki
      have hpidk : lastSeg.pid = (k : Int) + 1 := by rw [hlpid, hjpid]
      have e1 : ganttSum st.ganttData ((k : Int) + 1) = p0.burst - p0.remaining := by
        have := inv.gantt_sum k hk
        rw [hp0] at this
        exact this
      have e2 : ganttSum st.ganttData ((k : Int) + 1) =
          ganttSum st.ganttData.dropLast ((k : Int) + 1) +
            (lastSeg.endT - lastSeg.start) := by
        conv_lhs => rw [hdecomp]
        rw [ganttSum_concat, if_pos hpidk]
      rw [procAt_set_self hk, hfield]
      dsimp only
      rw [if_pos hpidk]
      omega
    · have hpidk : ¬ ({ lastSeg with endT := lastSeg.endT + 1 } : Segment).pid =
          (k : Int) + 1 := by
        dsimp only
        rw [hlpid, hjpid]
        intro hcc
        apply hki
        omega
      have e1 := inv.gantt_sum k hk
      have e2 : ganttSum st.ganttData ((k : Int) + 1) =
          ganttSum st.ganttData.dropLast ((k : Int) + 1) := by
        conv_lhs => rw [hdecomp]
        rw [ganttSum_concat, if_neg (by dsimp only at hpidk ⊢; exact hpidk), add_zero]
      rw [procAt_set_ne hki, if_neg hpidk]
      omega

/-- Under the invariant, the preemption rewrite
`self.ganttData[-1]['end'] = currentTime` never changes the timeline: the
last segment already ends at the current clock. -/
theorem gantt_guard_collapse {st : SchedState} (inv : LoopInv st) :
    (if st.currentProcessId ≠ -1 ∧
        0 < (getProc st.processes (st.currentProcessId - 1)).remaining then
      setLastEnd st.ganttData st.currentTime
    else st.ganttData) = st.ganttData := by
  by_cases hc : st.currentProcessId ≠ -1 ∧
      0 < (getProc st.processes (st.currentProcessId - 1)).remaining
  · rw [if_pos hc]
    rcases inv.cpid_inv hc.1 with ⟨j, hj, hjpid, hjrem, hjarr, lastSeg, hlast, hlpid, hlend⟩
    have hgne : st.ganttData ≠ [] := by
      intro hnil
      rw [hnil] at hlast
      simp at hlast
    have hlastEq : st.ganttData.getLast hgne = lastSeg := by
      have h3 := List.getLast?_eq_getLast st.ganttData hgne
      rw [h3] at hlast
      exact Option.some_injective _ hlast
    exact setLastEnd_self hgne st.currentTime (by rw [hlastEq, hlend])
  · exact if_neg hc

/-- The busy branch preserves the invariant on a CPU handover (the branch
that closes the previous segment and appends a fresh one). -/
theorem inv_stepBusy_new {st : SchedState} {i : Nat} {p0 : Proc} (inv : LoopInv st)
    (hsel : selectShortestJob st.processes st.currentTime = some (i, p0))
    (h : p0.pid ≠ st.currentProcessId) :
    LoopInv (stepBusy st i p0) := by
  rcases select_facts hsel with ⟨hi, hp0, harr, hrem⟩
  have hpid0 : p0.pid = (i : Int) + 1 := by rw [← hp0]; exact inv.pid_idx i hi
  have hfield := pNew_eq st.currentTime p0
  rcases inv_procs_set st i p0 (pFinish st.currentTime (pMark st.currentTime p0)) inv
      hi hp0 harr hrem (by rw [hfield]) (by rw [hfield]) (by rw [hfield])
      (by rw [hfield]) (by rw [hfield]) with ⟨c1, c2, c3, c4, c5, c6, c7, c8⟩
  have hremne : (procAt st.processes i).remaining ≠ 0 := by rw [hp0]; omega
  have ht := inv.time_nonneg
  rw [stepBusy_new_eq st i p0 h (gantt_guard_collapse inv)]
  refine ⟨?_, c1, c2, c3, c4, c5, c6, c7, c8, ?_, ?_, ?_, ?_, ?_, ?_⟩
  · dsimp only
    omega
  · dsimp only
    by_cases hd : p0.remaining - 1 = 0
    · rw [if_pos hd, doneCount_set_complete hi hremne (by rw [hfield]; exact hd),
        inv.completed_eq]
      push_cast
      ring
    · rw [if_neg hd,
        doneCount_set_stay hi (iff_of_false hremne (by rw [hfield]; exact hd))]
      exact inv.completed_eq
  · dsimp only
    by_cases hd : p0.remaining - 1 = 0
    · rw [if_pos hd]
      intro hcon
      exact absurd rfl hcon
    · rw [if_neg hd]
      intro _
      refine ⟨i, by rw [List.length_set]; exact hi, hpid0, ?_, ?_,
        ⟨Segment.mk p0.pid st.currentTime (st.currentTime + 1),
          List.getLast?_concat _, rfl, rfl⟩⟩
      · rw [procAt_set_self hi, hfield]
        dsimp only
        omega
      · rw [procAt_set_self hi, hfield]
        dsimp only
        omega
  · dsimp only
    by_cases hd : p0.remaining - 1 = 0
    · rw [if_pos hd]
      intro _ ls' hls'
      rw [List.getLast?_concat] at hls'
      have hls : ls' = Segment.mk p0.pid st.currentTime (st.currentTime + 1) :=
        (Option.some_injective _ hls').symm
      subst hls
      refine ⟨i, by rw [List.length_set]; exact hi, hpid0, ?_⟩
      rw [procAt_set_self hi, hfield]
      exact hd
    · rw [if_neg hd]
      intro hfalse
      rw [hpid0] at hfalse
      omega
  · dsimp only
    intro s hs
    rcases List.mem_append.mp hs with hs | hs
    · have := inv.seg_bounds s hs
      exact ⟨this.1, this.2.1, by omega⟩
    · rw [List.mem_singleton] at hs
      subst hs
      exact ⟨ht, by dsimp only; omega, by dsimp only; omega⟩
  · dsimp only
    rw [List.chain'_append]
    refine ⟨inv.gantt_chain, List.chain'_singleton _, ?_⟩
    intro x hx y hy
    simp only [List.head?_cons, Option.mem_def, Option.some.injEq] at hy
    subst hy
    rcases List.mem_getLast?_eq_getLast hx with ⟨hgne, hxeq⟩
    have hxmem : x ∈ st.ganttData := hxeq ▸ List.getLast_mem hgne
    have hxend : x.endT ≤ st.currentTime := (inv.seg_bounds x hxmem).2.2
    refine ⟨hxend, ?_⟩
    dsimp only
    by_cases hcpid : st.currentProcessId = -1
    · rcases inv.last_done hcpid x hx with ⟨j, hj, hjpid, hjrem⟩
      intro hcon
      rw [hjpid, hpid0] at hcon
      have : j = i := by omega
      subst this
      rw [hp0] at hjrem
      omega
    · rcases inv.cpid_inv hcpid with ⟨j, hj, hjpid, hjrem, hjarr, lastSeg, hlast, hlpid, hlend⟩
      have hxlast : x = lastSeg := by
        rw [Option.mem_def, hlast] at hx
        exact Option.some_injective _ hx.symm
      rw [hxlast, hlpid]
      exact fun hcon => h hcon.symm
  · dsimp only
    intro k hk
    rw [List.length_set] at hk
    rw [ganttSum_concat]
    by_cases hki : k = i
    · subst hki
      have e1 : ganttSum st.ganttData ((k : Int) + 1) = p0.burst - p0.remaining := by
        have := inv.gantt_sum k hk
        rw [hp0] at this
        exact this
      rw [procAt_set_self hk, hfield]
      dsimp only
      rw [if_pos hpid0]
      omega
    · have hpidk : ¬ (Segment.mk p0.pid st.currentTime (st.currentTime + 1)).pid =
          (k : Int) + 1 := by
        dsimp only
        rw [hpid0]
        intro hcc
        apply hki
        omega
      have e1 := inv.gantt_sum k hk
      rw [procAt_set_ne hki, if_neg hpidk]
      omega

/-! ### One full step -/

theorem step_eq_idle {st : SchedState}
    (hsel : selectShortestJob st.processes st.currentTime = none) :
    step st = { st with currentTime := st.currentTime + 1 } := by
  simp only [step, hsel]

theorem step_eq_busy {st : SchedState} {i : Nat} {p0 : Proc}
    (hsel : selectShortestJob st.processes st.currentTime = some (i, p0)) :
    step st = stepBusy st i p0 := by
  simp only [step, hsel]

/-- Every reachable state satisfies the invariant (one step). -/
theorem inv_step {st : SchedState} (inv : LoopInv st) : LoopInv (step st) := by
  cases hsel : selectShortestJob st.processes st.currentTime with
  | none =>
    rw [step_eq_idle hsel]
    exact inv_step_idle inv hsel
  | some ip =>
    obtain ⟨i, p0⟩ := ip
    rw [step_eq_busy hsel]
    by_cases hnew : p0.pid ≠ st.currentProcessId
    · exact inv_stepBusy_new inv hsel hnew
    · exact inv_stepBusy_cont inv hsel hnew

theorem stepBusy_length (st : SchedState) (i : Nat) (p0 : Proc) :
    (stepBusy st i p0).processes.length = st.processes.length := by
  simp only [stepBusy]
  split_ifs <;> simp [List.length_set]

theorem step_length (st : SchedState) :
    (step st).processes.length = st.processes.length := by
  cases hsel : selectShortestJob st.processes st.currentTime with
  | none => rw [step_eq_idle hsel]
  | some ip =>
    obtain ⟨i, p0⟩ := ip
    rw [step_eq_busy hsel]
    exact stepBusy_length st i p0

theorem step_time (st : SchedState) :
    (step st).currentTime = st.currentTime + 1 := by
  cases hsel : selectShortestJob st.processes st.currentTime with
  | none => rw [step_eq_idle hsel]
  | some ip =>
    obtain ⟨i, p0⟩ := ip
    rw [step_eq_busy hsel]
    simp only [stepBusy]
    split_ifs <;> rfl

theorem run_length (k : Nat) (st : SchedState) :
    (run k st).processes.length = st.processes.length := by
  induction k generalizing st with
  | zero => rfl
  | succ k ih =>
    simp only [run]
    split_ifs with hg
    · rw [ih (step st), step_length]
    · rfl

/-! ### Termination -/

theorem inv_rem_nonneg_mem {st : SchedState} (inv : LoopInv st) :
    ∀ p ∈ st.processes, 0 ≤ p.remaining := by
  intro p hp
  rcases List.getElem_of_mem hp with ⟨j, hj, hEq⟩
  have := inv.rem_nonneg j hj
  rwa [procAt, List.getD_eq_getElem _ _ hj, hEq] at this

theorem phi_nonneg {st : SchedState} (inv : LoopInv st) : 0 ≤ phi st := by
  unfold phi
  have h1 := sumRemaining_nonneg (inv_rem_nonneg_mem inv)
  have h2 : (0 : Int) ≤ max 0 (maxArrival st.processes - st.currentTime) :=
    le_max_left _ _
  omega

theorem notDone_phi_pos {st : SchedState} (inv : LoopInv st)
    (hnd : st.completedProcesses < (st.processes.length : Int)) : 0 < phi st := by
  have hdc : doneCount st.processes < st.processes.length := by
    have := inv.completed_eq
    omega
  rcases doneCount_lt_exists hdc with ⟨j, hj, hne⟩
  have hpos : 0 < (procAt st.processes j).remaining := by
    have := inv.rem_nonneg j hj
    omega
  have h1 := sumRemaining_pos (inv_rem_nonneg_mem inv) hj hpos
  have h2 : (0 : Int) ≤ max 0 (maxArrival st.processes - st.currentTime) :=
    le_max_left _ _
  unfold phi
  omega

/-- Every non-final iteration strictly decreases the potential. -/
theorem phi_step_le {st : SchedState} (inv : LoopInv st)
    (hnd : st.completedProcesses < (st.processes.length : Int)) :
    phi (step st) ≤ phi st - 1 := by
  cases hsel : selectShortestJob st.processes st.currentTime with
  | none =>
    rw [step_eq_idle hsel]
    have hdc : doneCount st.processes < st.processes.length := by
      have := inv.completed_eq
      omega
    rcases doneCount_lt_exists hdc with ⟨j, hj, hne⟩
    have hpos : 0 < (procAt st.processes j).remaining := by
      have := inv.rem_nonneg j hj
      omega
    have hnr : ¬ (procAt st.processes j).arrival ≤ st.currentTime := by
      intro hle
      have hmem : (j, procAt st.processes j) ∈ readyProcesses st.processes st.currentTime :=
        mem_readyProcesses.mpr ⟨hj, rfl, hle, hpos⟩
      exact List.ne_nil_of_mem hmem (selectShortestJob_eq_none.mp hsel)
    have hM : (procAt st.processes j).arrival ≤ maxArrival st.processes :=
      arrival_le_maxArrival (procAt_mem hj)
    have ht : st.currentTime < maxArrival st.processes := by omega
    unfold phi
    dsimp only
    have e1 : max 0 (maxArrival st.processes - st.currentTime) =
        maxArrival st.processes - st.currentTime := max_eq_right (by omega)
    have e2 : max 0 (maxArrival st.processes - (st.currentTime + 1)) =
        maxArrival st.processes - (st.currentTime + 1) := max_eq_right (by omega)
    omega
  | some ip =>
    obtain ⟨i, p0⟩ := ip
    rw [step_eq_busy hsel]
    rcases select_facts hsel with ⟨hi, hp0, harr, hrem⟩
    have hproc : ∃ pF : Proc, (stepBusy st i p0).processes = st.processes.set i pF ∧
        pF.remaining = p0.remaining - 1 ∧ pF.arrival = p0.arrival ∧
        (stepBusy st i p0).currentTime = st.currentTime + 1 := by
      by_cases hnew : p0.pid ≠ st.currentProcessId
      · refine ⟨pFinish st.currentTime (pMark st.currentTime p0),
          ?_, by rw [pNew_eq], by rw [pNew_eq], ?_⟩
        · rw [stepBusy_new_eq st i p0 hnew (gantt_guard_collapse inv)]
        · rw [stepBusy_new_eq st i p0 hnew (gantt_guard_collapse inv)]
      · refine ⟨pFinish st.currentTime p0, ?_, by rw [pFinish_eq],
          by rw [pFinish_eq], ?_⟩
        · rw [stepBusy_cont_eq st i p0 hnew]
        · rw [stepBusy_cont_eq st i p0 hnew]
    rcases hproc with ⟨pF, hps, hrem2, harr2, htime⟩
    unfold phi
    rw [hps, htime, sumRemaining_set pF hi,
      maxArrival_set hi (by rw [harr2, hp0]), hrem2, hp0]
    have e3 : max 0 (maxArrival st.processes - (st.currentTime + 1)) ≤
        max 0 (maxArrival st.processes - st.currentTime) :=
      max_le_max (le_refl 0) (by omega)
    omega

/-- With fuel at least the potential, the fuelled run reaches the loop's
exit condition, and the clock cannot outrun the initial potential. -/
theorem run_reaches_done : ∀ (k : Nat) (st : SchedState), LoopInv st →
    phi st ≤ (k : Int) →
    Done (run k st) ∧ LoopInv (run k st) ∧
      (run k st).currentTime + phi (run k st) ≤ st.currentTime + phi st := by
  intro k
  induction k with
  | zero =>
    intro st inv hphi
    refine ⟨?_, inv, le_refl _⟩
    intro hnd
    have := notDone_phi_pos inv hnd
    simp only [Nat.cast_zero] at hphi
    omega
  | succ k ih =>
    intro st inv hphi
    simp only [run]
    by_cases hnd : st.completedProcesses < (st.processes.length : Int)
    · rw [if_pos hnd]
      have inv2 := inv_step inv
      have hdec := phi_step_le inv hnd
      have htime := step_time st
      have hk : phi (step st) ≤ (k : Int) := by
        push_cast at hphi
        omega
      rcases ih (step st) inv2 hk with ⟨hd, hi2, hle⟩
      refine ⟨hd, hi2, ?_⟩
      rw [htime] at hle
      omega
    · rw [if_neg hnd]
      exact ⟨hnd, inv, le_refl _⟩

/-! ### The initial state -/

theorem length_initState (input : List (Int × Int)) :
    (initState input).processes.length = input.length := by
  simp [initState]

theorem procAt_initState (input : List (Int × Int)) {i : Nat}
    (h : i < input.length) :
    procAt (initState input).processes i = initProc i (input.getD i (0, 0)) := by
  unfold initState procAt
  dsimp only
  rw [List.getD_eq_getElem _ _ (by simpa using h), List.getElem_map,
    List.getElem_range]

theorem mem_initState {input : List (Int × Int)} {p : Proc}
    (h : p ∈ (initState input).processes) :
    ∃ i, i < input.length ∧ p = initProc i (input.getD i (0, 0)) := by
  rcases List.getElem_of_mem h with ⟨i, hi, hEq⟩
  rw [length_initState] at hi
  refine ⟨i, hi, ?_⟩
  have := procAt_initState input hi
  rw [procAt, List.getD_eq_getElem _ _ (by rwa [length_initState]), hEq] at this
  exact this

theorem valid_getD {input : List (Int × Int)} (hv : ValidInput input) (i : Nat)
    (h : i < input.length) :
    0 ≤ (input.getD i (0, 0)).1 ∧ 0 < (input.getD i (0, 0)).2 := by
  have hmem : input.getD i (0, 0) ∈ input := by
    rw [List.getD_eq_getElem _ _ h]
    exact List.getElem_mem h
  exact hv.2 _ hmem

/-- The invariant holds when the scheduler starts. -/
theorem inv_init {input : List (Int × Int)} (hv : ValidInput input) :
    LoopInv (initState input) := by
  have hlen := length_initState input
  have hfld : ∀ j, j < (initState input).processes.length →
      procAt (initState input).processes j = initProc j (input.getD j (0, 0)) := by
    intro j hj
    exact procAt_initState input (by omega)
  refine ⟨le_refl 0, ?_, ?_, ?_, ?_, ?_, ?_, ?_, ?_, ?_, ?_, ?_, ?_, ?_, ?_⟩
  · intro j hj
    rw [hfld j hj]
    rfl
  · intro j hj
    rw [hfld j hj]
    exact (valid_getD hv j (by omega)).1
  · intro j hj
    rw [hfld j hj]
    exact (valid_getD hv j (by omega)).2
  · intro j hj
    rw [hfld j hj]
    exact le_of_lt (valid_getD hv j (by omega)).2
  · intro j hj
    rw [hfld j hj]
    exact le_refl _
  · intro j hj
    rw [hfld j hj]
    have := (valid_getD hv j (by omega)).2
    constructor
    · intro _; rfl
    · intro _; exact this
  · intro j hj
    rw [hfld j hj]
    intro hz
    have := (valid_getD hv j (by omega)).2
    exact absurd hz (by simp only [initProc]; omega)
  · intro j hj
    rw [hfld j hj]
    intro hlt
    exact absurd hlt (by simp only [initProc]; omega)
  · have : doneCount (initState input).processes = 0 := by
      unfold doneCount
      rw [List.length_eq_zero, List.filter_eq_nil_iff]
      intro p hp
      rcases mem_initState hp with ⟨i, hi, rfl⟩
      have := (valid_getD hv i hi).2
      simp only [initProc, decide_eq_true_eq]
      omega
    rw [this]
    rfl
  · intro hc
    exact absurd rfl hc
  · intro _ lastSeg hlast
    simp [initState] at hlast
  · intro s hs
    simp [initState] at hs
  · simp [initState]
  · intro j hj
    rw [hfld j hj]
    simp only [initState, ganttSum_nil, initProc]
    ring

/-! ### End-to-end facts about the finished run -/

theorem executeSJF_length (input : List (Int × Int)) :
    (executeSJFAlgorithm input).processes.length = input.length := by
  unfold executeSJFAlgorithm
  rw [run_length, length_initState]

/-- The fuelled run exits the loop, keeps the invariant, and its final clock
is bounded by `max(arrival) + sum(burst)` of the batch. -/
theorem executeSJF_spec {input : List (Int × Int)} (hv : ValidInput input) :
    Done (executeSJFAlgorithm input) ∧ LoopInv (executeSJFAlgorithm input) ∧
      (executeSJFAlgorithm input).currentTime ≤
        maxArrival (initState input).processes +
          sumBurst (initState input).processes := by
  unfold executeSJFAlgorithm
  have inv0 := inv_init hv
  have hremburst : ∀ p ∈ (initState input).processes, p.remaining = p.burst := by
    intro p hp
    rcases mem_initState hp with ⟨i, hi, rfl⟩
    rfl
  have hsum := sumRemaining_eq_sumBurst hremburst
  have hM := maxArrival_nonneg (initState input).processes
  have hSB : 0 ≤ sumBurst (initState input).processes :=
    hsum ▸ sumRemaining_nonneg (inv_rem_nonneg_mem inv0)
  have h0 : (initState input).currentTime = 0 := rfl
  have hphi0 : phi (initState input) =
      sumBurst (initState input).processes +
        maxArrival (initState input).processes := by
    unfold phi
    rw [hsum, h0, sub_zero, max_eq_right hM]
  have hfuel : phi (initState input) ≤ ((schedFuel input : Nat) : Int) := by
    unfold schedFuel
    rw [Int.toNat_of_nonneg (by omega)]
    omega
  rcases run_reaches_done (schedFuel input) (initState input) inv0 hfuel with
    ⟨hd, hi2, hle⟩
  refine ⟨hd, hi2, ?_⟩
  have hpf := phi_nonneg hi2
  rw [h0, hphi0] at hle
  omega

/-- When the run has finished, every process has `remaining = 0`. -/
theorem executeSJF_rem_zero {input : List (Int × Int)} (hv : ValidInput input) :
    ∀ j, j < (executeSJFAlgorithm input).processes.length →
      (procAt (executeSJFAlgorithm input).processes j).remaining = 0 := by
  rcases executeSJF_spec hv with ⟨hd, inv, _⟩
  intro j hj
  have hc := inv.completed_eq
  have hdc := doneCount_le (executeSJFAlgorithm input).processes
  have hn : doneCount (executeSJFAlgorithm input).processes =
      (executeSJFAlgorithm input).processes.length := by
    unfold Done at hd
    omega
  exact doneCount_eq_length_iff.mp hn _ (procAt_mem hj)

/-! ### Iteration bookkeeping -/

theorem run_fix (m : Nat) (st : SchedState) (hd : Done st) : run m st = st := by
  induction m with
  | zero => rfl
  | succ m ih =>
    simp only [run]
    rw [if_neg hd]

theorem run_succ (k : Nat) (st : SchedState) :
    run (k + 1) st =
      if (run k st).completedProcesses < ((run k st).processes.length : Int) then
        step (run k st)
      else run k st := by
  induction k generalizing st with
  | zero =>
    simp only [run]
  | succ k ih =>
    by_cases hg : st.completedProcesses < (st.processes.length : Int)
    · have h1 : run (k + 1 + 1) st = run (k + 1) (step st) := by
        simp only [run]
        rw [if_pos hg]
      have h2 : run (k + 1) st = run k (step st) := by
        simp only [run]
        rw [if_pos hg]
      rw [h1, ih (step st), h2]
    · have hfix : ∀ m, run m st = st := fun m => run_fix m st hg
      rw [hfix (k + 1 + 1), hfix (k + 1), if_neg hg]

theorem inv_run (k : Nat) (st : SchedState) (inv : LoopInv st) :
    LoopInv (run k st) := by
  induction k generalizing st with
  | zero => exact inv
  | succ k ih =>
    simp only [run]
    split_ifs
    · exact ih (step st) (inv_step inv)
    · exact inv

/-- The busy branch replaces the selected process, whatever the sub-branch,
by a record with the same statics and one unit less remaining work. -/
theorem stepBusy_set {st : SchedState} {i : Nat} {p0 : Proc} (inv : LoopInv st)
    (_hsel : selectShortestJob st.processes st.currentTime = some (i, p0)) :
    ∃ pF : Proc, (stepBusy st i p0).processes = st.processes.set i pF ∧
      pF.remaining = p0.remaining - 1 := by
  by_cases hnew : p0.pid ≠ st.currentProcessId
  · refine ⟨pFinish st.currentTime (pMark st.currentTime p0), ?_, by rw [pNew_eq]⟩
    rw [stepBusy_new_eq st i p0 hnew (gantt_guard_collapse inv)]
  · refine ⟨pFinish st.currentTime p0, ?_, by rw [pFinish_eq]⟩
    rw [stepBusy_cont_eq st i p0 hnew]

/-- Across one iteration, each process's `remaining` either stays put or
drops by exactly one, and it only drops while still positive. -/
theorem step_rem {st : SchedState} (inv : LoopInv st) (j : Nat) :
    (procAt (step st).processes j).remaining = (procAt st.processes j).remaining ∨
      ((procAt (step st).processes j).remaining =
          (procAt st.processes j).remaining - 1 ∧
        0 < (procAt st.processes j).remaining) := by
  cases hsel : selectShortestJob st.processes st.currentTime with
  | none =>
    rw [step_eq_idle hsel]
    left
    rfl
  | some ip =>
    obtain ⟨i, p0⟩ := ip
    rw [step_eq_busy hsel]
    rcases select_facts hsel with ⟨hi, hp0, harr, hrem⟩
    rcases stepBusy_set inv hsel with ⟨pF, hps, hremF⟩
    rw [hps]
    by_cases hji : j = i
    · subst hji
      right
      rw [procAt_set_self hi, hremF, hp0]
      exact ⟨rfl, hrem⟩
    · left
      rw [procAt_set_ne hji]

/-- A chained timeline with positive-length segments has strictly increasing
segment starts. -/
theorem chain_start_lt :
    ∀ {g : List Segment},
      List.Chain' (fun a b => a.endT ≤ b.start ∧ a.pid ≠ b.pid) g →
      (∀ s ∈ g, s.start < s.endT) →
      List.Chain' (fun a b : Segment => a.start < b.start) g
  | [], _, _ => List.chain'_nil
  | [_], _, _ => List.chain'_singleton _
  | a :: b :: rest, hc, hb => by
    rw [List.chain'_cons] at hc ⊢
    refine ⟨?_, chain_start_lt hc.2 (fun s hs => hb s (List.mem_cons_of_mem _ hs))⟩
    have h1 := hb a (List.mem_cons_self _ _)
    have h2 := hc.1.1
    omega

/-! ### The metrics pass -/

theorem metricsLoop_spec : ∀ ps : List Proc,
    (metricsLoop ps).1.length = ps.length ∧
    (∀ j, j < ps.length →
      procAt (metricsLoop ps).1 j =
        { procAt ps j with
            turnaround := (procAt ps j).finish_time - (procAt ps j).arrival,
            waiting := (procAt ps j).finish_time - (procAt ps j).arrival -
              (procAt ps j).burst }) ∧
    (metricsLoop ps).2.1 = ((metricsLoop ps).1.map (fun p => p.waiting)).sum ∧
    (metricsLoop ps).2.2.1 =
      ((metricsLoop ps).1.map (fun p => p.turnaround)).sum ∧
    (metricsLoop ps).2.2.2 = (ps.map (fun p => p.response)).sum := by
  intro ps
  induction ps with
  | nil =>
    refine ⟨rfl, ?_, rfl, rfl, rfl⟩
    intro j hj
    simp at hj
  | cons p rest ih =>
    rcases ih with ⟨ihl, ihj, ihw, iht, ihr⟩
    refine ⟨?_, ?_, ?_, ?_, ?_⟩
    · simp only [metricsLoop, List.length_cons]
      rw [ihl]
    · intro j hj
      cases j with
      | zero =>
        simp only [metricsLoop, procAt, List.getD_cons_zero]
      | succ j =>
        simp only [metricsLoop, procAt, List.getD_cons_succ]
        exact ihj j (by simpa using hj)
    · simp only [metricsLoop, List.map_cons, List.sum_cons]
      rw [← ihw]
    · simp only [metricsLoop, List.map_cons, List.sum_cons]
      rw [← iht]
    · simp only [metricsLoop, List.map_cons, List.sum_cons]
      rw [← ihr]

/-- Cast of an integer list sum into the rationals. -/
theorem intListSum_cast (l : List Int) :
    ((l.sum : Int) : ℚ) = (l.map (fun x : Int => (x : ℚ))).sum := by
  induction l with
  | nil => simp
  | cons x rest ih =>
    rw [List.sum_cons, List.map_cons, List.sum_cons, ← ih]
    push_cast
    ring

/-- Concrete batch used to instantiate the universally quantified theorems:
the spec's preemption scenario. -/
def demoInput : List (Int × Int) := [(0, 8), (1, 4)]

theorem demoInput_valid : ValidInput demoInput :=
  ⟨by decide, by decide⟩

/-! ### The claims -/

/-- C1: whenever the ready set is nonempty, the scheduler's per-tick
selection returns a ready process whose `remaining` is minimal over the
ready set, and every ready process at an earlier list position has strictly
larger `remaining` (input-order tie-break). -/
theorem sjf_selection_min_first (ps : List Proc) (t : Int)
    (h : readyProcesses ps t ≠ []) :
    ∃ i p0, selectShortestJob ps t = some (i, p0) ∧
      i < ps.length ∧ procAt ps i = p0 ∧ p0.arrival ≤ t ∧ 0 < p0.remaining ∧
      (∀ j, j < ps.length → (procAt ps j).arrival ≤ t →
        0 < (procAt ps j).remaining →
        p0.remaining ≤ (procAt ps j).remaining) ∧
      (∀ j, j < i → (procAt ps j).arrival ≤ t → 0 < (procAt ps j).remaining →
        p0.remaining < (procAt ps j).remaining) := by
  cases hopt : selectShortestJob ps t with
  | none => exact absurd (selectShortestJob_eq_none.mp hopt) h
  | some ip =>
    obtain ⟨i, p0⟩ := ip
    rcases select_facts hopt with ⟨h1, h2, h3, h4⟩
    exact ⟨i, p0, rfl, h1, h2, h3, h4, select_min hopt, select_first hopt⟩

/-- Witness for C1 on the demo batch at clock 1: both processes are ready. -/
theorem sjf_selection_min_first_witness :
    readyProcesses (initState demoInput).processes 1 ≠ [] ∧
      ∃ i p0, selectShortestJob (initState demoInput).processes 1 = some (i, p0) ∧
        i < (initState demoInput).processes.length ∧
        procAt (initState demoInput).processes i = p0 ∧ p0.arrival ≤ 1 ∧
        0 < p0.remaining ∧
        (∀ j, j < (initState demoInput).processes.length →
          (procAt (initState demoInput).processes j).arrival ≤ 1 →
          0 < (procAt (initState demoInput).processes j).remaining →
          p0.remaining ≤ (procAt (initState demoInput).processes j).remaining) ∧
        (∀ j, j < i → (procAt (initState demoInput).processes j).arrival ≤ 1 →
          0 < (procAt (initState demoInput).processes j).remaining →
          p0.remaining < (procAt (initState demoInput).processes j).remaining) :=
  ⟨by decide, sjf_selection_min_first (initState demoInput).processes 1 (by decide)⟩

/-- C2: on a valid batch the finished run leaves every process with
`remaining = 0` and a set (`≠ -1`) finish time strictly after its arrival;
and across the run each process's `remaining` only ever steps down by one
unit while positive, so it reaches 0 exactly once. -/
theorem sjf_completion (input : List (Int × Int)) (hv : ValidInput input) :
    (∀ j, j < (executeSJFAlgorithm input).processes.length →
      (procAt (executeSJFAlgorithm input).processes j).remaining = 0 ∧
      (procAt (executeSJFAlgorithm input).processes j).finish_time ≠ -1 ∧
      (procAt (executeSJFAlgorithm input).processes j).arrival <
        (procAt (executeSJFAlgorithm input).processes j).finish_time) ∧
    (∀ k j,
      (procAt (run (k + 1) (initState input)).processes j).remaining =
          (procAt (run k (initState input)).processes j).remaining ∨
        ((procAt (run (k + 1) (initState input)).processes j).remaining =
            (procAt (run k (initState input)).processes j).remaining - 1 ∧
          0 < (procAt (run k (initState input)).processes j).remaining)) := by
  constructor
  · intro j hj
    rcases executeSJF_spec hv with ⟨_, inv, _⟩
    have hz := executeSJF_rem_zero hv j hj
    have hfin := inv.finish_unset j hj
    have hval := inv.finish_val j hj hz
    have hb := inv.burst_pos j hj
    refine ⟨hz, ?_, ?_⟩
    · intro hcon
      have := hfin.mpr hcon
      omega
    · omega
  · intro k j
    rw [run_succ]
    split_ifs with hg
    · exact step_rem (inv_run k _ (inv_init hv)) j
    · left
      rfl

/-- Witness for C2 on the demo batch. -/
theorem sjf_completion_witness :
    ValidInput demoInput ∧
      (procAt (executeSJFAlgorithm demoInput).processes 0).remaining = 0 ∧
      (procAt (executeSJFAlgorithm demoInput).processes 0).arrival <
        (procAt (executeSJFAlgorithm demoInput).processes 0).finish_time :=
  ⟨demoInput_valid,
    ((sjf_completion demoInput demoInput_valid).1 0 (by decide)).1,
    ((sjf_completion demoInput demoInput_valid).1 0 (by decide)).2.2⟩

/-- C3: the finished timeline is nonempty, its starts are non-decreasing,
every segment has `end > start`, and the time the timeline attributes to
process `j+1` is exactly that process's burst. -/
theorem sjf_timeline (input : List (Int × Int)) (hv : ValidInput input) :
    (executeSJFAlgorithm input).ganttData ≠ [] ∧
    List.Pairwise (fun a b : Segment => a.start ≤ b.start)
      (executeSJFAlgorithm input).ganttData ∧
    (∀ s ∈ (executeSJFAlgorithm input).ganttData, s.start < s.endT) ∧
    (∀ j, j < (executeSJFAlgorithm input).processes.length →
      ganttSum (executeSJFAlgorithm input).ganttData ((j : Int) + 1) =
        (procAt (executeSJFAlgorithm input).processes j).burst) := by
  rcases executeSJF_spec hv with ⟨_, inv, _⟩
  have hlen0 : 0 < (executeSJFAlgorithm input).processes.length := by
    rw [executeSJF_length]
    cases input with
    | nil => exact absurd rfl hv.1
    | cons a rest => simp
  have hsum0 : ∀ j, j < (executeSJFAlgorithm input).processes.length →
      ganttSum (executeSJFAlgorithm input).ganttData ((j : Int) + 1) =
        (procAt (executeSJFAlgorithm input).processes j).burst := by
    intro j hj
    have hs := inv.gantt_sum j hj
    rw [executeSJF_rem_zero hv j hj, sub_zero] at hs
    exact hs
  refine ⟨?_, ?_, fun s hs => (inv.seg_bounds s hs).2.1, hsum0⟩
  · intro hnil
    have h0 := hsum0 0 hlen0
    rw [hnil, ganttSum_nil] at h0
    have hb := inv.burst_pos 0 hlen0
    omega
  · have hchain := chain_start_lt inv.gantt_chain
      (fun s hs => (inv.seg_bounds s hs).2.1)
    haveI : IsTrans Segment (fun a b : Segment => a.start < b.start) :=
      ⟨fun _ _ _ => lt_trans⟩
    exact (List.chain'_iff_pairwise.mp hchain).imp (fun h => le_of_lt h)

/-- Witness for C3 on the demo batch. -/
theorem sjf_timeline_witness :
    ValidInput demoInput ∧ (executeSJFAlgorithm demoInput).ganttData ≠ [] ∧
      ganttSum (executeSJFAlgorithm demoInput).ganttData 1 =
        (procAt (executeSJFAlgorithm demoInput).processes 0).burst :=
  ⟨demoInput_valid, (sjf_timeline demoInput demoInput_valid).1,
    (sjf_timeline demoInput demoInput_valid).2.2.2 0 (by decide)⟩

/-- C4: the metrics pass computes `turnaround = finishTime − arrival` and
`waiting = turnaround − burst` for every process, and the three averages are
the arithmetic means of the per-process waiting, turnaround and response
values. -/
theorem sjf_metrics (ps : List Proc) :
    (calculatePerformanceMetrics ps).processes.length = ps.length ∧
    (∀ j, j < ps.length →
      (procAt (calculatePerformanceMetrics ps).processes j).turnaround =
          (procAt ps j).finish_time - (procAt ps j).arrival ∧
        (procAt (calculatePerformanceMetrics ps).processes j).waiting =
          (procAt (calculatePerformanceMetrics ps).processes j).turnaround -
            (procAt ps j).burst) ∧
    (calculatePerformanceMetrics ps).avgWaiting =
      ((calculatePerformanceMetrics ps).processes.map
        (fun p => (p.waiting : ℚ))).sum / (ps.length : ℚ) ∧
    (calculatePerformanceMetrics ps).avgTurnaround =
      ((calculatePerformanceMetrics ps).processes.map
        (fun p => (p.turnaround : ℚ))).sum / (ps.length : ℚ) ∧
    (calculatePerformanceMetrics ps).avgResponse =
      (ps.map (fun p => (p.response : ℚ))).sum / (ps.length : ℚ) := by
  rcases metricsLoop_spec ps with ⟨hl, hj, hw, ht, hr⟩
  refine ⟨hl, ?_, ?_, ?_, ?_⟩
  · intro j hjlt
    rw [show (calculatePerformanceMetrics ps).processes = (metricsLoop ps).1 from rfl,
      hj j hjlt]
    exact ⟨rfl, rfl⟩
  · show ((metricsLoop ps).2.1 : ℚ) / (ps.length : ℚ) = _
    rw [hw, intListSum_cast, List.map_map]
    rfl
  · show ((metricsLoop ps).2.2.1 : ℚ) / (ps.length : ℚ) = _
    rw [ht, intListSum_cast, List.map_map]
    rfl
  · show ((metricsLoop ps).2.2.2 : ℚ) / (ps.length : ℚ) = _
    rw [hr, intListSum_cast, List.map_map]
    rfl

/-- Witness for C4 on the finished demo run. -/
theorem sjf_metrics_witness :
    (procAt (calculatePerformanceMetrics
        (executeSJFAlgorithm demoInput).processes).processes 0).turnaround =
        (procAt (executeSJFAlgorithm demoInput).processes 0).finish_time -
          (procAt (executeSJFAlgorithm demoInput).processes 0).arrival ∧
      (calculatePerformanceMetrics
          (executeSJFAlgorithm demoInput).processes).avgResponse =
        ((executeSJFAlgorithm demoInput).processes.map
          (fun p => (p.response : ℚ))).sum /
          (((executeSJFAlgorithm demoInput).processes.length : Nat) : ℚ) :=
  ⟨((sjf_metrics (executeSJFAlgorithm demoInput).processes).2.1 0 (by decide)).1,
    (sjf_metrics (executeSJFAlgorithm demoInput).processes).2.2.2.2⟩

/-- C5: after the metrics pass on a valid finished run, every process has
nonnegative waiting time and turnaround at least its burst. -/
theorem sjf_waiting_nonneg (input : List (Int × Int)) (hv : ValidInput input) :
    ∀ j, j < (calculatePerformanceMetrics
        (executeSJFAlgorithm input).processes).processes.length →
      0 ≤ (procAt (calculatePerformanceMetrics
          (executeSJFAlgorithm input).processes).processes j).waiting ∧
      (procAt (executeSJFAlgorithm input).processes j).burst ≤
        (procAt (calculatePerformanceMetrics
          (executeSJFAlgorithm input).processes).processes j).turnaround := by
  intro j hj
  rcases metricsLoop_spec (executeSJFAlgorithm input).processes with ⟨hl, hjs, _, _, _⟩
  have hjlt : j < (executeSJFAlgorithm input).processes.length := by
    have : (calculatePerformanceMetrics
        (executeSJFAlgorithm input).processes).processes.length =
        (executeSJFAlgorithm input).processes.length := hl
    omega
  rcases executeSJF_spec hv with ⟨_, inv, _⟩
  have hz := executeSJF_rem_zero hv j hjlt
  have hval := inv.finish_val j hjlt hz
  have heq := hjs j hjlt
  rw [show (calculatePerformanceMetrics
      (executeSJFAlgorithm input).processes).processes =
      (metricsLoop (executeSJFAlgorithm input).processes).1 from rfl, heq]
  dsimp only
  omega

/-- Witness for C5 on the demo batch. -/
theorem sjf_waiting_nonneg_witness :
    ValidInput demoInput ∧
      0 ≤ (procAt (calculatePerformanceMetrics
          (executeSJFAlgorithm demoInput).processes).processes 0).waiting :=
  ⟨demoInput_valid,
    (sjf_waiting_nonneg demoInput demoInput_valid 0 (by decide)).1⟩

/-- C6: the spec's preemption scenario, fully computed: P1 runs `[0,1)`,
P2 preempts and runs `[1,5)` to completion, P1 resumes `[5,12)`; finish
times 5 and 12; responses 0 and 0; waitings 4 and 0. -/
theorem sjf_scenario_preemption :
    (executeSJFAlgorithm demoInput).ganttData =
        [Segment.mk 1 0 1, Segment.mk 2 1 5, Segment.mk 1 5 12] ∧
      (procAt (executeSJFAlgorithm demoInput).processes 1).finish_time = 5 ∧
      (procAt (executeSJFAlgorithm demoInput).processes 0).finish_time = 12 ∧
      (procAt (calculatePerformanceMetrics
          (executeSJFAlgorithm demoInput).processes).processes 0).response = 0 ∧
      (procAt (calculatePerformanceMetrics
          (executeSJFAlgorithm demoInput).processes).processes 0).waiting = 4 ∧
      (procAt (calculatePerformanceMetrics
          (executeSJFAlgorithm demoInput).processes).processes 1).response = 0 ∧
      (procAt (calculatePerformanceMetrics
          (executeSJFAlgorithm demoInput).processes).processes 1).waiting = 0 := by
  decide

/-- C7: the loop's exit condition is provably reached with
`max(arrival) + sum(burst)` fuel, and the final clock stays within that
bound. -/
theorem sjf_terminates (input : List (Int × Int)) (hv : ValidInput input) :
    Done (executeSJFAlgorithm input) ∧
      (executeSJFAlgorithm input).currentTime ≤
        maxArrival (initState input).processes +
          sumBurst (initState input).processes :=
  ⟨(executeSJF_spec hv).1, (executeSJF_spec hv).2.2⟩

/-- Witness for C7 on the demo batch (`max(arrival)+sum(burst) = 13`). -/
theorem sjf_terminates_witness :
    ValidInput demoInput ∧ (executeSJFAlgorithm demoInput).currentTime ≤
      maxArrival (initState demoInput).processes +
        sumBurst (initState demoInput).processes :=
  ⟨demoInput_valid, (sjf_terminates demoInput demoInput_valid).2⟩

/-- C8: the scheduler and the metrics pass are pure functions of the input
batch: equal inputs give equal timelines, equal per-process records and
equal averages. -/
theorem sjf_deterministic (input1 input2 : List (Int × Int))
    (h : input1 = input2) :
    executeSJFAlgorithm input1 = executeSJFAlgorithm input2 ∧
      calculatePerformanceMetrics (executeSJFAlgorithm input1).processes =
        calculatePerformanceMetrics (executeSJFAlgorithm input2).processes := by
  subst h
  exact ⟨rfl, rfl⟩

/-- Witness for C8 on the demo batch. -/
theorem sjf_deterministic_witness :
    executeSJFAlgorithm demoInput = executeSJFAlgorithm demoInput ∧
      calculatePerformanceMetrics (executeSJFAlgorithm demoInput).processes =
        calculatePerformanceMetrics (executeSJFAlgorithm demoInput).processes :=
  sjf_deterministic demoInput demoInput rfl

/-- C9: whenever the previous-tick process id is live (`≠ -1`) in any
reachable state, `currentProcessId - 1` is a nonnegative in-bounds index,
the process found there carries exactly that pid (it is the process that
held the CPU on the previous tick), and the timeline is nonempty with its
last segment owned by that process and ending at the current clock — so
`processes[currentProcessId - 1]` and `ganttData[-1]` are both safe. -/
theorem sjf_preemption_access_safe (input : List (Int × Int))
    (hv : ValidInput input) (k : Nat)
    (hc : (run k (initState input)).currentProcessId ≠ -1) :
    0 ≤ (run k (initState input)).currentProcessId - 1 ∧
      ((run k (initState input)).currentProcessId - 1).toNat <
        (run k (initState input)).processes.length ∧
      (procAt (run k (initState input)).processes
          ((run k (initState input)).currentProcessId - 1).toNat).pid =
        (run k (initState input)).currentProcessId ∧
      (run k (initState input)).ganttData ≠ [] ∧
      ∃ ls, (run k (initState input)).ganttData.getLast? = some ls ∧
        ls.pid = (run k (initState input)).currentProcessId ∧
        ls.endT = (run k (initState input)).currentTime := by
  have inv := inv_run k _ (inv_init hv)
  rcases inv.cpid_inv hc with ⟨j, hj, hjpid, hjrem, hjarr, ls, hls, hlpid, hlend⟩
  have hidx : ((run k (initState input)).currentProcessId - 1).toNat = j := by
    rw [hjpid]
    simp
  refine ⟨by rw [hjpid]; omega, by rw [hidx]; exact hj, ?_, ?_,
    ls, hls, hlpid, hlend⟩
  · rw [hidx, inv.pid_idx j hj, hjpid]
  · intro hnil
    rw [hnil] at hls
    simp at hls

/-- Witness for C9: after one tick of the demo batch, P1 holds the CPU. -/
theorem sjf_preemption_access_safe_witness :
    ValidInput demoInput ∧
      (run 1 (initState demoInput)).currentProcessId ≠ -1 ∧
      (procAt (run 1 (initState demoInput)).processes
          ((run 1 (initState demoInput)).currentProcessId - 1).toNat).pid =
        (run 1 (initState demoInput)).currentProcessId :=
  ⟨demoInput_valid, by decide,
    (sjf_preemption_access_safe demoInput demoInput_valid 1 (by decide)).2.2.1⟩

/-- C10: no two consecutive timeline segments of a finished valid run carry
the same process id: a fresh segment only appears on a real handover. -/
theorem sjf_no_adjacent_same_pid (input : List (Int × Int))
    (hv : ValidInput input) :
    List.Chain' (fun a b : Segment => a.pid ≠ b.pid)
      (executeSJFAlgorithm input).ganttData :=
  ((executeSJF_spec hv).2.1).gantt_chain.imp (fun _ _ h => h.2)

/-- Witness for C10 on the demo batch (its timeline has three segments). -/
theorem sjf_no_adjacent_same_pid_witness :
    ValidInput demoInput ∧
      List.Chain' (fun a b : Segment => a.pid ≠ b.pid)
        (executeSJFAlgorithm demoInput).ganttData :=
  ⟨demoInput_valid, sjf_no_adjacent_same_pid demoInput demoInput_valid⟩
